import Mathlib

/-!
Shallow embedding of the PYPOWER kernels `makePTDF` and `opf_costfcn`,
with theorems settling the specification claims about them.

Numbers are modelled by `ℚ` (exact arithmetic standing in for the
floating-point values of the source), vectors by functions out of `Fin n`
and matrices by Mathlib's `Matrix`.  Array-level elementwise operations,
boolean masks and sparse coordinate-triple constructions of the source are
translated to their elementwise meaning (duplicate coordinate entries sum,
as in `scipy`/MATLAB); Python slices keep their exact Python index
semantics.
-/

open Matrix

/-! ### makePTDF: data model

The bus table columns used by `makePTDF` are `BUS_I` and `BUS_TYPE`
(`from pypower.idx_bus import BUS_TYPE, REF, BUS_I`). -/

/-- Modelled from the spec: the bus type tag, "one of {PQ, PV, REFERENCE, ISOLATED}"
(the module `pypower.idx_bus` itself is not part of the sources). -/
inductive BusType
  | PQ
  | PV
  | REF
  | ISOLATED
deriving DecidableEq, Repr

/-- Modelled from the spec: the two bus-table columns read by `makePTDF`:
the declared identifier `BUS_I` and the type tag `BUS_TYPE`. -/
structure Bus where
  busI : ℤ
  busType : BusType
deriving DecidableEq

/-- The slack argument of `makePTDF`: a scalar bus index, an `nb`-vector of
weights, or an `nb × nb` distribution matrix (`slack=None` is modelled by
`Option` at the call boundary). -/
inductive Slack (nb : ℕ)
  | scalar (s : Fin nb)
  | vec (w : Fin nb → ℚ)
  | mat (S : Matrix (Fin nb) (Fin nb) ℚ)

/-- Lines 55-58: `slack_bus = slack` when `isscalar(slack)`, else bus `0`. -/
def slackBusOf {n : ℕ} : Slack (n + 1) → Fin (n + 1)
  | .scalar s => s
  | .vec _ => 0
  | .mat _ => 0

/-- The strictly monotone enumeration of `find(arange(nb) != s)` (line 63):
the `j`-th bus index different from `s`, in increasing order. -/
def skipIdx {n : ℕ} (s : Fin (n + 1)) (j : Fin n) : Fin (n + 1) :=
  if h : j.val < s.val then ⟨j.val, by omega⟩
  else ⟨j.val + 1, by have := j.isLt; omega⟩

/-- Position of a bus `k ≠ s` inside the `noslack` enumeration `skipIdx s`. -/
def unskipIdx {n : ℕ} (s k : Fin (n + 1)) (hk : ¬ k = s) : Fin n :=
  if h : k.val < s.val then ⟨k.val, by have := s.isLt; omega⟩
  else ⟨k.val - 1, by
    have h1 := k.isLt
    have h2 : s.val ≠ k.val := fun hc => hk (Fin.ext hc.symm)
    omega⟩

/-- Executable matrix inverse over `ℚ` (`det⁻¹ • adjugate`), the value
`numpy.linalg.solve` is specified to produce for a nonsingular system. -/
def invEx {m : ℕ} (A : Matrix (Fin m) (Fin m) ℚ) : Matrix (Fin m) (Fin m) ℚ :=
  (A.det)⁻¹ • A.adjugate

/-- Line 73's coefficient matrix `Bbus[ix_(noslack, noref)]`: rows are the
buses other than `slack_bus`, columns are the buses other than bus `0`
(`noref = arange(1, nb)`, line 62). -/
def solveCoeff {n : ℕ} (Bbus : Matrix (Fin (n + 1)) (Fin (n + 1)) ℚ) (sb : Fin (n + 1)) :
    Matrix (Fin n) (Fin n) ℚ :=
  Bbus.submatrix (skipIdx sb) Fin.succ

/-- Lines 72-73: the single-slack PTDF.  `H` starts as zeros; columns
`noslack` receive `Bf[:, noref] * inv(Bbus[ix_(noslack, noref)])`
(the comment on line 74), so the `slack_bus` column stays zero. -/
def ptdfSingle {n nbr : ℕ} (Bbus : Matrix (Fin (n + 1)) (Fin (n + 1)) ℚ)
    (Bf : Matrix (Fin nbr) (Fin (n + 1)) ℚ) (sb : Fin (n + 1)) :
    Matrix (Fin nbr) (Fin (n + 1)) ℚ :=
  fun i k =>
    if hk : k = sb then 0
    else ((Bf.submatrix id Fin.succ) * invEx (solveCoeff Bbus sb)) i (unskipIdx sb k hk)

/-- Line 79: `slack = slack / sum(slack)`. -/
def normSlack {nb : ℕ} (w : Fin nb → ℚ) : Fin nb → ℚ :=
  fun i => w i / ∑ j, w j

/-- Lines 85-86: the column loop `for k in range(nb): H[:, k] = H[:, k] - v`,
embedded as a left fold over the column indices in order. -/
def subVecLoop {nb nbr : ℕ} (H : Matrix (Fin nbr) (Fin nb) ℚ) (v : Fin nbr → ℚ) :
    Matrix (Fin nbr) (Fin nb) ℚ :=
  (List.finRange nb).foldl
    (fun Hacc k => Hacc.updateColumn k (fun i => Hacc i k - v i)) H

/-- Lines 69-90 given an already-resolved slack argument: single-slack PTDF,
then slack redistribution for the vector (lines 78-86) and matrix (line 88)
cases.  `Bbus` and `Bf` come from the external collaborator `makeBdc`. -/
def makePTDFresolved {n nbr : ℕ} (Bbus : Matrix (Fin (n + 1)) (Fin (n + 1)) ℚ)
    (Bf : Matrix (Fin nbr) (Fin (n + 1)) ℚ) :
    Slack (n + 1) → Matrix (Fin nbr) (Fin (n + 1)) ℚ
  | .scalar s => ptdfSingle Bbus Bf s
  | .vec w =>
      subVecLoop (ptdfSingle Bbus Bf 0)
        ((ptdfSingle Bbus Bf 0).mulVec (normSlack w))
  | .mat S => ptdfSingle Bbus Bf 0 * S

/-- Lines 66-67: the consecutive-numbering check
`any(bus[:, BUS_I] != arange(nb))`; a `True` value means the diagnostic
message was written to `stderr`. -/
def busWarning {nb : ℕ} (bus : Fin nb → Bus) : Bool :=
  decide (∃ i : Fin nb, (bus i).busI ≠ (i.val : ℤ))

/-- Lines 50-52: `find(bus[:, BUS_TYPE] == REF)` followed by `[0]`; `none`
models the `IndexError` raised when no bus has type `REF`. -/
def defaultSlack {nb : ℕ} (bus : Fin nb → Bus) : Option (Fin nb) :=
  (List.finRange nb).find? (fun i => decide ((bus i).busType = BusType.REF))

/-- The whole of `makePTDF` (lines 49-90).  The returned pair carries the
side effect of the numbering check (`busWarning`) next to the PTDF matrix;
`none` models the unhandled `IndexError` of the `slack=None`, no-`REF`-bus
path.  `baseMVA` is only ever forwarded to the external `makeBdc`, whose
outputs `Bbus`, `Bf` are taken as inputs here. -/
def makePTDF {n nbr : ℕ} (bus : Fin (n + 1) → Bus)
    (Bbus : Matrix (Fin (n + 1)) (Fin (n + 1)) ℚ)
    (Bf : Matrix (Fin nbr) (Fin (n + 1)) ℚ) (slack : Option (Slack (n + 1))) :
    Option (Bool × Matrix (Fin nbr) (Fin (n + 1)) ℚ) :=
  match slack with
  | none =>
      match defaultSlack bus with
      | none => none
      | some s => some (busWarning bus, makePTDFresolved Bbus Bf (.scalar s))
  | some sl => some (busWarning bus, makePTDFresolved Bbus Bf sl)

/-! ### makePTDF: helper lemmas -/

/-- Unfolding of the column-subtraction loop over an arbitrary column list. -/
lemma subVecLoop_go {nb nbr : ℕ} (v : Fin nbr → ℚ) :
    ∀ (l : List (Fin nb)) (_ : l.Nodup) (H : Matrix (Fin nbr) (Fin nb) ℚ)
      (i : Fin nbr) (k : Fin nb),
      (l.foldl (fun Hacc c => Hacc.updateColumn c (fun r => Hacc r c - v r)) H) i k
        = if k ∈ l then H i k - v i else H i k := by
  intro l
  induction l with
  | nil => intro _ H i k; simp
  | cons a t ih =>
      intro hnd H i k
      have hand := List.nodup_cons.mp hnd
      simp only [List.foldl_cons]
      rw [ih hand.2]
      by_cases hk : k ∈ t
      · have hka : ¬ k = a := fun hc => hand.1 (hc ▸ hk)
        simp [hk, Matrix.updateColumn_ne hka, List.mem_cons, hka]
      · by_cases hka : k = a
        · subst hka
          simp [hk, Matrix.updateColumn_self, List.mem_cons]
        · simp [hk, Matrix.updateColumn_ne hka, List.mem_cons, hka]

/-- The loop of lines 85-86 subtracts `v` from every column. -/
lemma subVecLoop_apply {nb nbr : ℕ} (H : Matrix (Fin nbr) (Fin nb) ℚ)
    (v : Fin nbr → ℚ) (i : Fin nbr) (k : Fin nb) :
    subVecLoop H v i k = H i k - v i := by
  unfold subVecLoop
  rw [subVecLoop_go v (List.finRange nb) (List.nodup_finRange nb) H i k]
  simp [List.mem_finRange]

/-- First-match characterization of `List.find?` over `finRange`. -/
lemma find?_finRange_first :
    ∀ {m : ℕ} (p : Fin m → Bool) (r : Fin m), p r = true →
      (∀ j, j < r → p j = false) → (List.finRange m).find? p = some r := by
  intro m
  induction m with
  | zero => intro _ r _ _; exact absurd r.isLt (Nat.not_lt_zero _)
  | succ n ih =>
      intro p r h1 h2
      rw [List.finRange_succ_eq_map]
      rcases Fin.eq_zero_or_eq_succ r with h0 | ⟨j, hj⟩
      · subst h0
        exact List.find?_cons_of_pos _ h1
      · subst hj
        have hp0 : p 0 = false := h2 0 (Fin.succ_pos j)
        rw [List.find?_cons_of_neg _ (by simp [hp0]), List.find?_map,
          ih (p ∘ Fin.succ) j h1
            (fun j' hj' => h2 j'.succ (Fin.succ_lt_succ_iff.mpr hj'))]
        rfl

/-- Lines 50-52 pick the first `REF`-typed bus in storage order. -/
lemma defaultSlack_eq_first {nb : ℕ} (bus : Fin nb → Bus) (r : Fin nb)
    (h1 : (bus r).busType = BusType.REF)
    (h2 : ∀ j, j < r → (bus j).busType ≠ BusType.REF) :
    defaultSlack bus = some r :=
  find?_finRange_first _ r (decide_eq_true h1)
    (fun j hj => decide_eq_false (h2 j hj))

/-! ### Concrete makePTDF inputs used by witnesses and counterexamples -/

/-- A correctly numbered 2-bus table, both buses of type `REF`. -/
def exBusRef : Fin 2 → Bus := fun i => ⟨(i.val : ℤ), BusType.REF⟩

/-- A badly numbered 2-bus table (both identifiers are 5). -/
def exBusBad : Fin 2 → Bus := fun _ => ⟨5, BusType.REF⟩

/-- A 2-bus table without any `REF` bus. -/
def exBusNoRef : Fin 2 → Bus := fun _ => ⟨0, BusType.PQ⟩

/-- A 2-bus table whose only `REF` bus is bus 1. -/
def exBusRef1 : Fin 2 → Bus :=
  fun i => if i = 1 then ⟨1, BusType.REF⟩ else ⟨0, BusType.PQ⟩

/-- A concrete 2-bus susceptance matrix. -/
def exBbus2 : Matrix (Fin 2) (Fin 2) ℚ := 1

/-- A concrete 1-branch × 2-bus branch susceptance map. -/
def exBf2 : Matrix (Fin 1) (Fin 2) ℚ := fun _ _ => 1

/-- A concrete weight vector on 2 buses with nonzero sum. -/
def exW2 : Fin 2 → ℚ := fun i => if i = 0 then 1 else 0

/-! ### Claims about makePTDF -/

/-- C6: for a scalar slack argument, or the default reference-bus slack, the
returned PTDF's column at the slack bus is exactly zero (and the function
does return a matrix). -/
theorem makePTDF_slack_column_zero {n nbr : ℕ} (bus : Fin (n + 1) → Bus)
    (Bbus : Matrix (Fin (n + 1)) (Fin (n + 1)) ℚ)
    (Bf : Matrix (Fin nbr) (Fin (n + 1)) ℚ)
    (slack : Option (Slack (n + 1))) (s : Fin (n + 1))
    (h : slack = some (.scalar s) ∨ (slack = none ∧ defaultSlack bus = some s)) :
    makePTDF bus Bbus Bf slack = some (busWarning bus, ptdfSingle Bbus Bf s)
      ∧ ∀ i, ptdfSingle Bbus Bf s i s = 0 := by
  constructor
  · rcases h with h | ⟨h1, h2⟩
    · subst h; rfl
    · subst h1
      unfold makePTDF
      rw [h2]
      rfl
  · intro i
    unfold ptdfSingle
    rw [dif_pos rfl]

/-- Witness for C6 at a concrete 2-bus, 1-branch input with scalar slack 1. -/
theorem makePTDF_slack_column_zero_witness :
    makePTDF exBusRef exBbus2 exBf2 (some (.scalar 1))
        = some (busWarning exBusRef, ptdfSingle exBbus2 exBf2 1)
      ∧ ∀ i, ptdfSingle exBbus2 exBf2 1 i 1 = 0 :=
  makePTDF_slack_column_zero exBusRef exBbus2 exBf2 _ 1 (Or.inl rfl)

/-- The `noslack` enumeration at slack bus `0` is `Fin.succ`, i.e. removing
bus 0's row coincides with removing bus 0's (angle-reference) column. -/
lemma skipIdx_zero {n : ℕ} : skipIdx (0 : Fin (n + 1)) = Fin.succ := by
  funext j
  unfold skipIdx
  rw [dif_neg (by simp)]
  rfl

/-- A concrete 3-bus susceptance matrix with pairwise distinct entries. -/
def exB3 : Matrix (Fin 3) (Fin 3) ℚ := fun i j => ((3 * i.val + j.val : ℕ) : ℚ)

/-- C7 counterexample: for the scalar slack bus 1, the coefficient matrix of
the initial solve is not the bus matrix with row 1 and column 1 removed: the
column removed is bus 0's, not the slack bus's. -/
theorem solveCoeff_ne_remove_slack_column :
    solveCoeff exB3 1 ≠ exB3.submatrix (skipIdx 1) (skipIdx 1) := by
  intro hc
  have h00 := congrFun (congrFun hc 0) 0
  simp only [solveCoeff, exB3, Matrix.submatrix_apply, skipIdx] at h00
  norm_num at h00

/-- C7 amended: the voltage-angle-reference column removed before the solve
is always bus 0's (`noref = arange(1, nb)`), for every slack specification;
the row removed belongs to the temporary slack bus, which is the scalar
slack when one is given and bus 0 otherwise.  Row and column belong to the
same bus only when that temporary slack bus is bus 0. -/
theorem solveCoeff_removes_column_zero {n : ℕ}
    (Bbus : Matrix (Fin (n + 1)) (Fin (n + 1)) ℚ) (sl : Slack (n + 1)) :
    solveCoeff Bbus (slackBusOf sl)
        = Bbus.submatrix (skipIdx (slackBusOf sl)) (skipIdx 0)
      ∧ (∀ s : Fin (n + 1), slackBusOf (.scalar s) = s)
      ∧ (∀ w : Fin (n + 1) → ℚ, slackBusOf (.vec w) = 0)
      ∧ (∀ S : Matrix (Fin (n + 1)) (Fin (n + 1)) ℚ, slackBusOf (.mat S) = 0) := by
  refine ⟨?_, fun _ => rfl, fun _ => rfl, fun _ => rfl⟩
  rw [skipIdx_zero]
  rfl

/-- C8: on a bus table whose identifiers are not `0..nb-1` in storage order,
`makePTDF` reports the diagnostic (flag `true`) and still returns the PTDF
matrix, which does not depend on the identifiers at all. -/
theorem makePTDF_bad_numbering_warns_and_continues {n nbr : ℕ}
    (bus : Fin (n + 1) → Bus) (Bbus : Matrix (Fin (n + 1)) (Fin (n + 1)) ℚ)
    (Bf : Matrix (Fin nbr) (Fin (n + 1)) ℚ) (sl : Slack (n + 1))
    (hbad : ∃ i, (bus i).busI ≠ (i.val : ℤ)) :
    makePTDF bus Bbus Bf (some sl) = some (true, makePTDFresolved Bbus Bf sl) := by
  unfold makePTDF busWarning
  rw [decide_eq_true hbad]

/-- Witness for C8: a 2-bus table numbered 5, 5 instead of 0, 1. -/
theorem makePTDF_bad_numbering_witness :
    makePTDF exBusBad exBbus2 exBf2 (some (.scalar 0))
      = some (true, makePTDFresolved exBbus2 exBf2 (.scalar 0)) :=
  makePTDF_bad_numbering_warns_and_continues exBusBad exBbus2 exBf2 _ (by decide)

/-- C10: with `slack=None`, a bus table without any `REF`-typed bus makes
`makePTDF` raise an unhandled `IndexError` (no result); with at least one
`REF` bus, the first one in storage order becomes the (scalar) slack. -/
theorem makePTDF_default_slack {n nbr : ℕ} (bus : Fin (n + 1) → Bus)
    (Bbus : Matrix (Fin (n + 1)) (Fin (n + 1)) ℚ)
    (Bf : Matrix (Fin nbr) (Fin (n + 1)) ℚ) :
    ((∀ i, (bus i).busType ≠ BusType.REF) → makePTDF bus Bbus Bf none = none)
      ∧ (∀ r, (bus r).busType = BusType.REF →
          (∀ j, j < r → (bus j).busType ≠ BusType.REF) →
          makePTDF bus Bbus Bf none
            = some (busWarning bus, ptdfSingle Bbus Bf r)) := by
  constructor
  · intro hno
    have hnone : defaultSlack bus = none :=
      List.find?_eq_none.mpr (fun i _ => by simp [hno i])
    unfold makePTDF
    rw [hnone]
  · intro r h1 h2
    unfold makePTDF
    rw [defaultSlack_eq_first bus r h1 h2]
    rfl

/-- Witness for C10: a table with no REF bus yields no result; a table whose
only REF bus is bus 1 selects bus 1 as default slack. -/
theorem makePTDF_default_slack_witness :
    makePTDF exBusNoRef exBbus2 exBf2 none = none
      ∧ makePTDF exBusRef1 exBbus2 exBf2 none
          = some (busWarning exBusRef1, ptdfSingle exBbus2 exBf2 1) :=
  ⟨(makePTDF_default_slack exBusNoRef exBbus2 exBf2).1 (by decide),
    (makePTDF_default_slack exBusRef1 exBbus2 exBf2).2 1 (by decide) (by decide)⟩

/-- C2: for a weight-vector slack with nonzero sum, the column-subtraction
loop of lines 84-86 computes exactly `H_0 · (I − w_norm·1ᵗ)`, where `H_0` is
the single-slack PTDF for the temporary slack bus 0 and `w_norm` is the
normalized weight vector. -/
theorem makePTDF_vec_eq_product {n nbr : ℕ}
    (Bbus : Matrix (Fin (n + 1)) (Fin (n + 1)) ℚ)
    (Bf : Matrix (Fin nbr) (Fin (n + 1)) ℚ) (w : Fin (n + 1) → ℚ)
    (_hsum : ∑ i, w i ≠ 0) :
    makePTDFresolved Bbus Bf (.vec w)
      = ptdfSingle Bbus Bf 0
          * (1 - Matrix.vecMulVec (normSlack w) (fun _ => 1)) := by
  ext i k
  show subVecLoop (ptdfSingle Bbus Bf 0)
      ((ptdfSingle Bbus Bf 0).mulVec (normSlack w)) i k = _
  rw [subVecLoop_apply]
  simp only [Matrix.mul_apply, Matrix.sub_apply, Matrix.one_apply,
    Matrix.vecMulVec_apply, Matrix.mulVec, dotProduct, mul_sub,
    Finset.sum_sub_distrib, mul_ite, mul_one, mul_zero]
  rw [Finset.sum_ite_eq' Finset.univ k (fun j => ptdfSingle Bbus Bf 0 i j)]
  simp

/-- Witness for C2 at a concrete 2-bus, 1-branch network and weights (1, 0). -/
theorem makePTDF_vec_eq_product_witness :
    (∑ i, exW2 i ≠ 0)
      ∧ makePTDFresolved exBbus2 exBf2 (.vec exW2)
          = ptdfSingle exBbus2 exBf2 0
              * (1 - Matrix.vecMulVec (normSlack exW2) (fun _ => 1)) :=
  ⟨by simp [exW2, Fin.sum_univ_two],
    makePTDF_vec_eq_product exBbus2 exBf2 exW2 (by simp [exW2, Fin.sum_univ_two])⟩

/-- C9: for a weight-vector slack with nonzero sum, the returned PTDF
annihilates the normalized weight vector: `H_w · (w / sum w) = 0`. -/
theorem makePTDF_vec_annihilates_weights {n nbr : ℕ}
    (Bbus : Matrix (Fin (n + 1)) (Fin (n + 1)) ℚ)
    (Bf : Matrix (Fin nbr) (Fin (n + 1)) ℚ) (w : Fin (n + 1) → ℚ)
    (hsum : ∑ i, w i ≠ 0) :
    (makePTDFresolved Bbus Bf (.vec w)).mulVec (normSlack w) = 0 := by
  have hone : ∑ k, normSlack w k = 1 := by
    unfold normSlack
    rw [← Finset.sum_div]
    exact div_self hsum
  funext i
  show ∑ k, subVecLoop (ptdfSingle Bbus Bf 0)
      ((ptdfSingle Bbus Bf 0).mulVec (normSlack w)) i k * normSlack w k = 0
  simp only [subVecLoop_apply, sub_mul, Finset.sum_sub_distrib]
  rw [← Finset.mul_sum, hone, mul_one]
  simp [Matrix.mulVec, dotProduct]

/-- Witness for C9 at the same concrete network and weights. -/
theorem makePTDF_vec_annihilates_weights_witness :
    (∑ i, exW2 i ≠ 0)
      ∧ (makePTDFresolved exBbus2 exBf2 (.vec exW2)).mulVec (normSlack exW2) = 0 :=
  ⟨by simp [exW2, Fin.sum_univ_two],
    makePTDF_vec_annihilates_weights exBbus2 exBf2 exW2
      (by simp [exW2, Fin.sum_univ_two])⟩

/-! ### opf_costfcn: data model

`opf_costfcn` reads the generator cost table `gencost`, the generalized
cost parameters `N, Cw, H, dd, rh, kk, mm` and the variable index map `vv`
from the model object `om`; the decision vector is `x`. -/

/-- Modelled from the spec: the `MODEL` column value tagging a
piecewise-linear cost row (`pypower.idx_cost` is not part of the sources). -/
def PW_LINEAR : ℚ := 1

/-- Modelled from the spec: the `MODEL` column value tagging a polynomial
cost row. -/
def POLYNOMIAL : ℚ := 2

/-- Modelled from the spec: one `gencost` row as used by `opf_costfcn` — the
cost-model tag and the polynomial coefficients (highest degree first). -/
structure CostRow where
  model : ℚ
  coeffs : List ℚ
deriving DecidableEq

/-- Modelled from the spec: polynomial evaluation (Horner) on a coefficient
list with the highest-degree coefficient first. -/
def polyval (cs : List ℚ) (t : ℚ) : ℚ :=
  cs.foldl (fun a c => a * t + c) 0

/-- Coefficients of the derivative polynomial, given the degree of the
leading coefficient. -/
def polyDerAux : ℕ → List ℚ → List ℚ
  | _, [] => []
  | _, [_] => []
  | d, c :: c2 :: cs => (d : ℚ) * c :: polyDerAux (d - 1) (c2 :: cs)

/-- Coefficient list of the derivative polynomial. -/
def polyDer (cs : List ℚ) : List ℚ := polyDerAux (cs.length - 1) cs

/-- Modelled from the spec: the external polynomial cost evaluator
`polycost(row, t, der)` — the `der`-th derivative of the row's polynomial at
`t` (`pypower.polycost` is not part of the sources). -/
def polycost (row : CostRow) (t : ℚ) (der : ℕ) : ℚ :=
  polyval (polyDer^[der] row.coeffs) t

/-- Modelled from the spec: the external `totcost(row, t)`, used only on
polynomial rows, where it is the polynomial's value at `t`
(`pypower.totcost` is not part of the sources). -/
def totcost (row : CostRow) (t : ℚ) : ℚ := polyval row.coeffs t

/-! ### opf_costfcn: generalized cost term (lines 83-105, 123-126, 168-170)

These functions depend on `x` only through `r = N·x − rh`, which is passed
as the argument `r`. -/

/-- Line 86: row `i` is below the dead zone, `r < -kk`. -/
def inLT {nw : ℕ} (kk r : Fin nw → ℚ) (i : Fin nw) : Prop := r i < -(kk i)

/-- Line 87: row `i` is at a degenerate (zero-width) dead zone,
`r == 0 & kk == 0` elementwise. -/
def inEQ {nw : ℕ} (kk r : Fin nw → ℚ) (i : Fin nw) : Prop := r i = 0 ∧ kk i = 0

/-- Line 88: row `i` is above the dead zone, `r > kk`. -/
def inGT {nw : ℕ} (kk r : Fin nw → ℚ) (i : Fin nw) : Prop := kk i < r i

/-- Line 89: row `i` is not in the dead region (`iND = r_[iLT, iEQ, iGT]`). -/
def inND {nw : ℕ} (kk r : Fin nw → ℚ) (i : Fin nw) : Prop :=
  inLT kk r i ∨ inEQ kk r i ∨ inGT kk r i

instance {nw : ℕ} (kk r : Fin nw → ℚ) (i : Fin nw) : Decidable (inLT kk r i) := by
  unfold inLT; infer_instance

instance {nw : ℕ} (kk r : Fin nw → ℚ) (i : Fin nw) : Decidable (inEQ kk r i) := by
  unfold inEQ; infer_instance

instance {nw : ℕ} (kk r : Fin nw → ℚ) (i : Fin nw) : Decidable (inGT kk r i) := by
  unfold inGT; infer_instance

instance {nw : ℕ} (kk r : Fin nw → ℚ) (i : Fin nw) : Decidable (inND kk r i) := by
  unfold inND; infer_instance

/-- Lines 94-97: the diagonal of `kbar` times `kk` — `+kk` on below rows,
`0` on degenerate rows, `-kk` on above rows, `0` on dead-region rows
(coordinate duplicates in the sparse construction sum). -/
def kbarOf {nw : ℕ} (kk r : Fin nw → ℚ) : Fin nw → ℚ := fun i =>
  ((if inLT kk r i then (1 : ℚ) else 0) + (if inGT kk r i then (-1 : ℚ) else 0)) * kk i

/-- Line 98: `rr = r + kbar`, the effective deviation. -/
def rrOf {nw : ℕ} (kk r : Fin nw → ℚ) : Fin nw → ℚ := fun i => r i + kbarOf kk r i

/-- Line 99: the diagonal of `M = sparse(mm(iND), (iND, iND))` with
`iND = r_[iLT, iEQ, iGT]` — row `i` receives one copy of `mm i` for each of
the three zone lists containing it (coordinate duplicates in the sparse
construction sum), and `0` on dead-region rows. -/
def MdiagOf {nw : ℕ} (kk mm r : Fin nw → ℚ) : Fin nw → ℚ := fun i =>
  ((if inLT kk r i then (1 : ℚ) else 0) + (if inEQ kk r i then (1 : ℚ) else 0)
    + (if inGT kk r i then (1 : ℚ) else 0)) * mm i

/-- Line 92: the 0/1 diagonal selector of the linear rows (`dd == 1`). -/
def LLd {nw : ℕ} (dd : Fin nw → ℚ) : Matrix (Fin nw) (Fin nw) ℚ :=
  Matrix.diagonal (fun i => if dd i = 1 then (1 : ℚ) else 0)

/-- Line 93: the 0/1 diagonal selector of the quadratic rows (`dd == 2`). -/
def QQd {nw : ℕ} (dd : Fin nw → ℚ) : Matrix (Fin nw) (Fin nw) ℚ :=
  Matrix.diagonal (fun i => if dd i = 2 then (1 : ℚ) else 0)

/-- Line 103: `w = M * (LL + QQ * diag(rr)) * rr`. -/
def wvecOf {nw : ℕ} (dd kk mm r : Fin nw → ℚ) : Fin nw → ℚ :=
  (Matrix.diagonal (MdiagOf kk mm r)
      * (LLd dd + QQd dd * Matrix.diagonal (rrOf kk r))).mulVec (rrOf kk r)

/-- Line 105: the generalized cost value `(wᵗ·H·w)/2 + Cwᵗ·w`. -/
def fgenOf {nw : ℕ} (dd kk mm r : Fin nw → ℚ)
    (Hw : Matrix (Fin nw) (Fin nw) ℚ) (Cw : Fin nw → ℚ) : ℚ :=
  (wvecOf dd kk mm r ⬝ᵥ Hw.mulVec (wvecOf dd kk mm r)) / 2
    + Cw ⬝ᵥ wvecOf dd kk mm r

/-- Line 124: `HwC = H * w + Cw`. -/
def HwCOf {nw : ℕ} (dd kk mm r : Fin nw → ℚ)
    (Hw : Matrix (Fin nw) (Fin nw) ℚ) (Cw : Fin nw → ℚ) : Fin nw → ℚ :=
  Hw.mulVec (wvecOf dd kk mm r) + Cw

/-- Line 125: `AA = N.T * M * (LL + 2 * QQ * diagrr)`. -/
def AAOf {nw nx : ℕ} (N : Matrix (Fin nw) (Fin nx) ℚ) (dd kk mm r : Fin nw → ℚ) :
    Matrix (Fin nx) (Fin nw) ℚ :=
  N.transpose * Matrix.diagonal (MdiagOf kk mm r)
    * (LLd dd + (2 : ℚ) • (QQd dd * Matrix.diagonal (rrOf kk r)))

/-- Line 126: the gradient increment `AA * HwC` of the generalized term. -/
def dfgenOf {nw nx : ℕ} (N : Matrix (Fin nw) (Fin nx) ℚ) (dd kk mm r : Fin nw → ℚ)
    (Hw : Matrix (Fin nw) (Fin nw) ℚ) (Cw : Fin nw → ℚ) : Fin nx → ℚ :=
  (AAOf N dd kk mm r).mulVec (HwCOf dd kk mm r Hw Cw)

/-- Lines 169-170: the Hessian increment
`AA * H * AA.T + 2 * N.T * M * QQ * diag(HwC) * N` of the generalized term. -/
def d2fgenOf {nw nx : ℕ} (N : Matrix (Fin nw) (Fin nx) ℚ) (dd kk mm r : Fin nw → ℚ)
    (Hw : Matrix (Fin nw) (Fin nw) ℚ) (Cw : Fin nw → ℚ) :
    Matrix (Fin nx) (Fin nx) ℚ :=
  AAOf N dd kk mm r * Hw * (AAOf N dd kk mm r).transpose
    + (2 : ℚ) • (N.transpose * Matrix.diagonal (MdiagOf kk mm r) * QQd dd
        * Matrix.diagonal (HwCOf dd kk mm r Hw Cw) * N)

/-! ### opf_costfcn: the model object and the three outputs -/

/-- The data `opf_costfcn` unpacks from its arguments: dimensions, the
variable index map, the generator cost table and the generalized cost
parameters.  The index map (`vv["i1"]`, `vv["iN"]` and the `y`-block count
`ny = om.getN('var', 'y')`) is modelled from the spec: each named block is a
contiguous half-open offset range in the decision vector, the blocks are
disjoint, and `gencost` has one row per generator or two (the reactive
block).  `baseMVA` converts per-unit decision variables to physical units. -/
structure OPFModel where
  ng : ℕ
  nxyz : ℕ
  baseMVA : ℚ
  i1Pg : ℕ
  i1Qg : ℕ
  i1y : ℕ
  ny : ℕ
  gencost : List CostRow
  nw : ℕ
  N : Matrix (Fin nw) (Fin nxyz) ℚ
  Cw : Fin nw → ℚ
  H : Matrix (Fin nw) (Fin nw) ℚ
  dd : Fin nw → ℚ
  rh : Fin nw → ℚ
  kk : Fin nw → ℚ
  mm : Fin nw → ℚ
  hPg : i1Pg + ng ≤ nxyz
  hQg : i1Qg + ng ≤ nxyz
  hy : i1y + ny ≤ nxyz
  hPQ : i1Pg + ng ≤ i1Qg ∨ i1Qg + ng ≤ i1Pg
  hyP : i1y + ny ≤ i1Pg ∨ i1Pg + ng ≤ i1y
  hyQ : i1y + ny ≤ i1Qg ∨ i1Qg + ng ≤ i1y
  hgc : gencost.length = ng ∨ gencost.length = 2 * ng

/-- Line 58: `Pg = x[vv["i1"]["Pg"]:vv["iN"]["Pg"]]`. -/
def Pg (m : OPFModel) (x : Fin m.nxyz → ℚ) (g : Fin m.ng) : ℚ :=
  x ⟨m.i1Pg + g.val, by have h1 := m.hPg; have h2 := g.isLt; omega⟩

/-- Line 59: `Qg = x[vv["i1"]["Qg"]:vv["iN"]["Qg"]]`. -/
def Qg (m : OPFModel) (x : Fin m.nxyz → ℚ) (g : Fin m.ng) : ℚ :=
  x ⟨m.i1Qg + g.val, by have h1 := m.hQg; have h2 := g.isLt; omega⟩

/-- Line 66: `xx = r_[Pg, Qg] * baseMVA`. -/
def xxv (m : OPFModel) (x : Fin m.nxyz → ℚ) (i : Fin (2 * m.ng)) : ℚ :=
  if h : i.val < m.ng then Pg m x ⟨i.val, h⟩ * m.baseMVA
  else Qg m x ⟨i.val - m.ng, by have := i.isLt; omega⟩ * m.baseMVA

/-- Lines 65-70: the polynomial cost `sum(totcost(gencost[ipol, :], xx[ipol]))`
(the sum over non-polynomial rows contributes `0`, which also covers the
`any(ipol)` guard). -/
def fpoly (m : OPFModel) (x : Fin m.nxyz → ℚ) : ℚ :=
  ∑ k : Fin m.gencost.length,
    if (m.gencost.get k).model = POLYNOMIAL then
      totcost (m.gencost.get k)
        (xxv m x ⟨k.val, by have h3 := k.isLt; rcases m.hgc with h | h <;> omega⟩)
    else 0

/-- Lines 73-80: the piecewise-linear selector row `ccost` — ones exactly at
the `y`-block offsets (for `ny = 0` this is the `zeros((1, nxyz))` branch). -/
def ccost (m : OPFModel) : Fin m.nxyz → ℚ := fun j =>
  if m.i1y ≤ j.val ∧ j.val < m.i1y + m.ny then 1 else 0

/-- Line 83: the guard `any(N)` — some entry of `N` is nonzero. -/
def anyN (m : OPFModel) : Prop := ∃ i j, m.N i j ≠ 0

instance (m : OPFModel) : Decidable (anyN m) := by
  unfold anyN; infer_instance

/-- Line 85: `r = N * x - rh`. -/
def rvecM (m : OPFModel) (x : Fin m.nxyz → ℚ) : Fin m.nw → ℚ :=
  m.N.mulVec x - m.rh

/-- Line 103 at the model's parameters. -/
def wvecM (m : OPFModel) (x : Fin m.nxyz → ℚ) : Fin m.nw → ℚ :=
  wvecOf m.dd m.kk m.mm (rvecM m x)

/-- Line 105's generalized cost increment at the model's parameters. -/
def fgenM (m : OPFModel) (x : Fin m.nxyz → ℚ) : ℚ :=
  fgenOf m.dd m.kk m.mm (rvecM m x) m.H m.Cw

/-- Line 124 at the model's parameters. -/
def HwCM (m : OPFModel) (x : Fin m.nxyz → ℚ) : Fin m.nw → ℚ :=
  HwCOf m.dd m.kk m.mm (rvecM m x) m.H m.Cw

/-- Line 125 at the model's parameters. -/
def AAM (m : OPFModel) (x : Fin m.nxyz → ℚ) : Matrix (Fin m.nxyz) (Fin m.nw) ℚ :=
  AAOf m.N m.dd m.kk m.mm (rvecM m x)

/-- Line 126's gradient increment at the model's parameters. -/
def dfgenM (m : OPFModel) (x : Fin m.nxyz → ℚ) : Fin m.nxyz → ℚ :=
  dfgenOf m.N m.dd m.kk m.mm (rvecM m x) m.H m.Cw

/-- Lines 169-170's Hessian increment at the model's parameters. -/
def d2fgenM (m : OPFModel) (x : Fin m.nxyz → ℚ) : Matrix (Fin m.nxyz) (Fin m.nxyz) ℚ :=
  d2fgenOf m.N m.dd m.kk m.mm (rvecM m x) m.H m.Cw

/-- The objective value `f` returned by `opf_costfcn` (lines 61-105):
polynomial cost, plus `ccost * x`, plus the generalized cost when `any(N)`. -/
def opf_f (m : OPFModel) (x : Fin m.nxyz → ℚ) : ℚ :=
  fpoly m x + ccost m ⬝ᵥ x + (if anyN m then fgenM m x else 0)

/-- Lines 113-114: `df_dPgQg`, zero except `baseMVA * polycost(row, xx, 1)`
at the polynomial rows. -/
def df_dPgQg (m : OPFModel) (x : Fin m.nxyz → ℚ) (k : Fin (2 * m.ng)) : ℚ :=
  if h : k.val < m.gencost.length then
    (if (m.gencost.get ⟨k.val, h⟩).model = POLYNOMIAL then
      m.baseMVA * polycost (m.gencost.get ⟨k.val, h⟩) (xxv m x k) 1
    else 0)
  else 0

/-- Lines 115-117: the polynomial part of `df`, scattered to the `Pg` and
`Qg` offsets (the blocks are disjoint by the model invariants). -/
def dfPoly (m : OPFModel) (x : Fin m.nxyz → ℚ) (j : Fin m.nxyz) : ℚ :=
  if hP : m.i1Pg ≤ j.val ∧ j.val < m.i1Pg + m.ng then
    df_dPgQg m x ⟨j.val - m.i1Pg, by omega⟩
  else if hQ : m.i1Qg ≤ j.val ∧ j.val < m.i1Qg + m.ng then
    df_dPgQg m x ⟨m.ng + (j.val - m.i1Qg), by omega⟩
  else 0

/-- The gradient `df` returned by `opf_costfcn` (lines 107-126): polynomial
part, plus `ccost.T` (line 120), plus the generalized increment when
`any(N)`. -/
def opf_df (m : OPFModel) (x : Fin m.nxyz → ℚ) : Fin m.nxyz → ℚ := fun j =>
  dfPoly m x j + ccost m j + (if anyN m then dfgenM m x j else 0)

/-- Line 148: `pcost = gencost[range(ng), :]`. -/
def pcost (m : OPFModel) : List CostRow := m.gencost.take m.ng

/-- Lines 149-152: `qcost = gencost[ng + 1:2 * ng, :]` when `gencost` has
more than `ng` rows, else empty.  The Python slice starts at row `ng + 1`,
so it skips row `ng` and has at most `ng - 1` rows. -/
def qcost (m : OPFModel) : List CostRow :=
  if m.ng < m.gencost.length then
    (m.gencost.drop (m.ng + 1)).take (2 * m.ng - (m.ng + 1))
  else []

/-- Line 160's guard `any(qcost)`: some entry of the array is nonzero
(`False` on an empty array). -/
def anyRowNZ (l : List CostRow) : Prop :=
  ∃ row ∈ l, row.model ≠ 0 ∨ ∃ c ∈ row.coeffs, c ≠ 0

instance (l : List CostRow) : Decidable (anyRowNZ l) := by
  unfold anyRowNZ; infer_instance

/-- Lines 155-159: `d2f_dPg2`, zero except
`baseMVA**2 * polycost(pcost[g], Pg[g]*baseMVA, 2)` at polynomial rows. -/
def d2f_dPg2 (m : OPFModel) (x : Fin m.nxyz → ℚ) (g : Fin m.ng) : ℚ :=
  if h : g.val < (pcost m).length then
    (if ((pcost m).get ⟨g.val, h⟩).model = POLYNOMIAL then
      m.baseMVA ^ 2 * polycost ((pcost m).get ⟨g.val, h⟩) (Pg m x g * m.baseMVA) 2
    else 0)
  else 0

/-- Lines 160-163: `d2f_dQg2`, guarded by `any(qcost)`; row `g` of `qcost`
is paired with `Qg[g]` (and `qcost` has at most `ng - 1` rows). -/
def d2f_dQg2 (m : OPFModel) (x : Fin m.nxyz → ℚ) (g : Fin m.ng) : ℚ :=
  if anyRowNZ (qcost m) then
    if h : g.val < (qcost m).length then
      (if ((qcost m).get ⟨g.val, h⟩).model = POLYNOMIAL then
        m.baseMVA ^ 2 * polycost ((qcost m).get ⟨g.val, h⟩) (Qg m x g * m.baseMVA) 2
      else 0)
    else 0
  else 0

/-- Lines 164-165: the sparse diagonal `d2f` of the polynomial costs at the
`r_[iPg, iQg]` positions (coordinate duplicates would sum). -/
def d2fBase (m : OPFModel) (x : Fin m.nxyz → ℚ) :
    Matrix (Fin m.nxyz) (Fin m.nxyz) ℚ := fun j k =>
  if j = k then
    (if hP : m.i1Pg ≤ j.val ∧ j.val < m.i1Pg + m.ng then
        d2f_dPg2 m x ⟨j.val - m.i1Pg, by omega⟩ else 0)
      + (if hQ : m.i1Qg ≤ j.val ∧ j.val < m.i1Qg + m.ng then
        d2f_dQg2 m x ⟨j.val - m.i1Qg, by omega⟩ else 0)
  else 0

/-- The Hessian `d2f` returned by `opf_costfcn` (lines 147-170). -/
def opf_d2f (m : OPFModel) (x : Fin m.nxyz → ℚ) :
    Matrix (Fin m.nxyz) (Fin m.nxyz) ℚ := fun j k =>
  d2fBase m x j k + (if anyN m then d2fgenM m x j k else 0)

/-! ### Claims about the generalized cost term (C1, C3) -/

/-- The spec's closed form `AA = Nᵗ·diag(s)·(Linear + 2·Quadratic·diag(rr))`
with an explicit scale vector `s` in place of `diag(mm)`. -/
def AAspec (m : OPFModel) (x : Fin m.nxyz → ℚ) (s : Fin m.nw → ℚ) :
    Matrix (Fin m.nxyz) (Fin m.nw) ℚ :=
  m.N.transpose * Matrix.diagonal s
    * (LLd m.dd + (2 : ℚ) • (QQd m.dd * Matrix.diagonal (rrOf m.kk (rvecM m x))))

/-- The spec's closed form for the Hessian increment,
`AA·H·AAᵗ + 2·Nᵗ·diag(s)·Quadratic·diag(HwC)·N`, with an explicit scale
vector `s` in place of `diag(mm)`. -/
def d2fspec (m : OPFModel) (x : Fin m.nxyz → ℚ) (s : Fin m.nw → ℚ) :
    Matrix (Fin m.nxyz) (Fin m.nxyz) ℚ :=
  AAspec m x s * m.H * (AAspec m x s).transpose
    + (2 : ℚ) • (m.N.transpose * Matrix.diagonal s * QQd m.dd
        * Matrix.diagonal (HwCM m x) * m.N)

/-- The scale vector `mm` with every row strictly inside the dead region
(`−kk ≤ r ≤ kk` and not the degenerate point `r = 0, kk = 0`) zeroed. -/
def mmMasked (m : OPFModel) (x : Fin m.nxyz → ℚ) : Fin m.nw → ℚ := fun i =>
  if -(m.kk i) ≤ rvecM m x i ∧ rvecM m x i ≤ m.kk i
      ∧ ¬(rvecM m x i = 0 ∧ m.kk i = 0) then 0
  else m.mm i

/-- With nonnegative dead-zone half-widths the three zones are disjoint, so
the code's diagonal of `M` is exactly `mm` masked on the dead region. -/
lemma mmMasked_eq_MdiagOf (m : OPFModel) (x : Fin m.nxyz → ℚ)
    (hkk : ∀ i, 0 ≤ m.kk i) :
    mmMasked m x = MdiagOf m.kk m.mm (rvecM m x) := by
  funext i
  have hk := hkk i
  simp only [mmMasked, MdiagOf, inLT, inEQ, inGT]
  by_cases h1 : rvecM m x i < -(m.kk i)
  · have h2 : ¬ (rvecM m x i = 0 ∧ m.kk i = 0) := by
      rintro ⟨hr, hkz⟩
      rw [hr, hkz] at h1
      simp at h1
    have h3 : ¬ m.kk i < rvecM m x i := by
      intro h3
      linarith
    rw [if_pos h1, if_neg h2, if_neg h3,
      if_neg (fun hc => absurd hc.1 (not_le.mpr h1))]
    ring
  · by_cases h3 : m.kk i < rvecM m x i
    · have h2 : ¬ (rvecM m x i = 0 ∧ m.kk i = 0) := by
        rintro ⟨hr, hkz⟩
        rw [hr, hkz] at h3
        simp at h3
      rw [if_neg h1, if_neg h2, if_pos h3,
        if_neg (fun hc => absurd hc.2.1 (not_le.mpr h3))]
      ring
    · by_cases h2 : rvecM m x i = 0 ∧ m.kk i = 0
      · rw [if_neg h1, if_pos h2, if_neg h3,
          if_neg (fun hc => hc.2.2 h2)]
        ring
      · rw [if_neg h1, if_neg h2, if_neg h3,
          if_pos ⟨not_lt.mp h1, not_lt.mp h3, h2⟩]
        ring

/-- C1 (amended): when `N` has a nonzero entry and the dead-zone half-widths
are nonnegative, the gradient returned by `opf_costfcn` is the
polynomial-plus-pwl part plus `AA·HwC`, and the Hessian is the polynomial
diagonal plus `AA·H·AAᵗ + 2·Nᵗ·M·Quadratic·diag(HwC)·N`, where
`AA = Nᵗ·M·(Linear + 2·Quadratic·diag(rr))` and `M` is `diag(mm)` with the
rows strictly inside the dead region zeroed (the claim's unmasked `diag(mm)`
is wrong on those rows). -/
theorem opf_gen_closed_forms (m : OPFModel) (x : Fin m.nxyz → ℚ)
    (hN : anyN m) (hkk : ∀ i, 0 ≤ m.kk i) :
    opf_df m x
        = (fun j => dfPoly m x j + ccost m j)
          + (AAspec m x (mmMasked m x)).mulVec (HwCM m x)
      ∧ opf_d2f m x = d2fBase m x + d2fspec m x (mmMasked m x) := by
  have hAA : AAspec m x (mmMasked m x) = AAM m x := by
    unfold AAspec AAM AAOf
    rw [mmMasked_eq_MdiagOf m x hkk]
  constructor
  · funext j
    simp only [opf_df, if_pos hN, Pi.add_apply]
    rw [hAA]
    rfl
  · funext j k
    simp only [opf_d2f, if_pos hN, Matrix.add_apply]
    congr 1
    unfold d2fspec
    rw [hAA, mmMasked_eq_MdiagOf m x hkk]
    rfl

/-- Concrete generalized-cost model for the C1 counterexample: one linear
row (`dd = 1`) with dead-zone half-width `kk = 1`, scale `mm = 1`,
`H = 0`, `Cw = 1`, and `N = (1)` on a single decision variable. -/
@[reducible] def exM1 : OPFModel where
  ng := 0
  nxyz := 1
  baseMVA := 1
  i1Pg := 0
  i1Qg := 0
  i1y := 0
  ny := 0
  gencost := []
  nw := 1
  N := fun _ _ => 1
  Cw := fun _ => 1
  H := fun _ _ => 0
  dd := fun _ => 1
  rh := fun _ => 0
  kk := fun _ => 1
  mm := fun _ => 1
  hPg := by omega
  hQg := by omega
  hy := by omega
  hPQ := Or.inl (by omega)
  hyP := Or.inl (by omega)
  hyQ := Or.inl (by omega)
  hgc := Or.inl rfl

/-- The decision vector `x = 1/2`, which puts the single row strictly inside
the dead zone (`−1 ≤ 1/2 ≤ 1`, `kk = 1 > 0`). -/
@[reducible] def exX1 : Fin 1 → ℚ := fun _ => 1 / 2

/-- C1 counterexample: with a row strictly inside a nonzero dead zone the
code's gradient increment (`0`, because `M` zeroes that row) differs from
the claim's closed form with the unmasked `diag(mm)` (which gives `1`). -/
theorem opf_gen_closed_forms_counterexample :
    ¬ (dfgenM exM1 exX1 = (AAspec exM1 exX1 exM1.mm).mulVec (HwCM exM1 exX1)
        ∧ d2fgenM exM1 exX1 = d2fspec exM1 exX1 exM1.mm) := by
  intro hc
  have h1 := congrFun hc.1 0
  norm_num [dfgenM, dfgenOf, AAOf, AAspec, HwCM, HwCOf, wvecOf, MdiagOf,
    LLd, QQd, rrOf, kbarOf, inND, inLT, inEQ, inGT, rvecM, exM1, exX1,
    Matrix.mulVec, Matrix.mul_apply, dotProduct, Matrix.diagonal,
    Matrix.transpose_apply, Matrix.smul_apply, Matrix.add_apply,
    Matrix.of_apply, Fin.sum_univ_one, Pi.sub_apply] at h1

/-- Witness for C1 (amended) at the concrete model `exM1`, whose `N` has a
nonzero entry and whose dead-zone half-width is `1 ≥ 0`. -/
theorem opf_gen_closed_forms_witness :
    (anyN exM1 ∧ ∀ i, 0 ≤ exM1.kk i)
      ∧ (opf_df exM1 exX1
            = (fun j => dfPoly exM1 exX1 j + ccost exM1 j)
              + (AAspec exM1 exX1 (mmMasked exM1 exX1)).mulVec (HwCM exM1 exX1)
          ∧ opf_d2f exM1 exX1
            = d2fBase exM1 exX1 + d2fspec exM1 exX1 (mmMasked exM1 exX1)) :=
  ⟨⟨⟨0, 0, one_ne_zero⟩, fun _ => zero_le_one⟩,
    opf_gen_closed_forms exM1 exX1 ⟨0, 0, one_ne_zero⟩ (fun _ => zero_le_one)⟩

/-- The model `m` with the scale `mm` zeroed at row `i` (used to state that
a dead-region row contributes nothing to the outputs). -/
def mmZeroAt (m : OPFModel) (i : Fin m.nw) : OPFModel :=
  { m with mm := Function.update m.mm i 0 }

/-- Zeroing `mm` at a dead-region row does not change the `M` diagonal. -/
lemma MdiagOf_update {nw : ℕ} (kk mm r : Fin nw → ℚ) (i : Fin nw)
    (hnd : ¬ inND kk r i) :
    MdiagOf kk (Function.update mm i 0) r = MdiagOf kk mm r := by
  have hLT : ¬ inLT kk r i := fun h => hnd (Or.inl h)
  have hEQ : ¬ inEQ kk r i := fun h => hnd (Or.inr (Or.inl h))
  have hGT : ¬ inGT kk r i := fun h => hnd (Or.inr (Or.inr h))
  funext i2
  unfold MdiagOf
  by_cases hi : i2 = i
  · subst hi
    rw [if_neg hLT, if_neg hEQ, if_neg hGT]
    ring
  · rw [Function.update_noteq hi]

/-- Zeroing `mm` at a dead-region row does not change `w`. -/
lemma wvecOf_update {nw : ℕ} (dd kk mm r : Fin nw → ℚ) (i : Fin nw)
    (hnd : ¬ inND kk r i) :
    wvecOf dd kk (Function.update mm i 0) r = wvecOf dd kk mm r := by
  unfold wvecOf
  rw [MdiagOf_update kk mm r i hnd]

/-- Zeroing `mm` at a dead-region row does not change the cost increment. -/
lemma fgenOf_update {nw : ℕ} (dd kk mm r : Fin nw → ℚ) (i : Fin nw)
    (Hw : Matrix (Fin nw) (Fin nw) ℚ) (Cw : Fin nw → ℚ)
    (hnd : ¬ inND kk r i) :
    fgenOf dd kk (Function.update mm i 0) r Hw Cw = fgenOf dd kk mm r Hw Cw := by
  unfold fgenOf
  rw [wvecOf_update dd kk mm r i hnd]

/-- Zeroing `mm` at a dead-region row does not change `HwC`. -/
lemma HwCOf_update {nw : ℕ} (dd kk mm r : Fin nw → ℚ) (i : Fin nw)
    (Hw : Matrix (Fin nw) (Fin nw) ℚ) (Cw : Fin nw → ℚ)
    (hnd : ¬ inND kk r i) :
    HwCOf dd kk (Function.update mm i 0) r Hw Cw = HwCOf dd kk mm r Hw Cw := by
  unfold HwCOf
  rw [wvecOf_update dd kk mm r i hnd]

/-- Zeroing `mm` at a dead-region row does not change `AA`. -/
lemma AAOf_update {nw nx : ℕ} (N : Matrix (Fin nw) (Fin nx) ℚ)
    (dd kk mm r : Fin nw → ℚ) (i : Fin nw) (hnd : ¬ inND kk r i) :
    AAOf N dd kk (Function.update mm i 0) r = AAOf N dd kk mm r := by
  unfold AAOf
  rw [MdiagOf_update kk mm r i hnd]

/-- Zeroing `mm` at a dead-region row does not change the gradient
increment. -/
lemma dfgenOf_update {nw nx : ℕ} (N : Matrix (Fin nw) (Fin nx) ℚ)
    (dd kk mm r : Fin nw → ℚ) (i : Fin nw)
    (Hw : Matrix (Fin nw) (Fin nw) ℚ) (Cw : Fin nw → ℚ)
    (hnd : ¬ inND kk r i) :
    dfgenOf N dd kk (Function.update mm i 0) r Hw Cw
      = dfgenOf N dd kk mm r Hw Cw := by
  unfold dfgenOf
  rw [AAOf_update N dd kk mm r i hnd, HwCOf_update dd kk mm r i Hw Cw hnd]

/-- Zeroing `mm` at a dead-region row does not change the Hessian
increment. -/
lemma d2fgenOf_update {nw nx : ℕ} (N : Matrix (Fin nw) (Fin nx) ℚ)
    (dd kk mm r : Fin nw → ℚ) (i : Fin nw)
    (Hw : Matrix (Fin nw) (Fin nw) ℚ) (Cw : Fin nw → ℚ)
    (hnd : ¬ inND kk r i) :
    d2fgenOf N dd kk (Function.update mm i 0) r Hw Cw
      = d2fgenOf N dd kk mm r Hw Cw := by
  unfold d2fgenOf
  rw [AAOf_update N dd kk mm r i hnd, MdiagOf_update kk mm r i hnd,
    HwCOf_update dd kk mm r i Hw Cw hnd]

/-- A dead-region row of `w` is zero (its row of `M` is zero). -/
lemma wvecOf_dead {nw : ℕ} (dd kk mm r : Fin nw → ℚ) (i : Fin nw)
    (hnd : ¬ inND kk r i) :
    wvecOf dd kk mm r i = 0 := by
  have hLT : ¬ inLT kk r i := fun h => hnd (Or.inl h)
  have hEQ : ¬ inEQ kk r i := fun h => hnd (Or.inr (Or.inl h))
  have hGT : ¬ inGT kk r i := fun h => hnd (Or.inr (Or.inr h))
  unfold wvecOf
  simp [Matrix.mulVec, dotProduct, Matrix.diagonal_mul, MdiagOf, hLT, hEQ, hGT]

/-- Zeroing `mm` at a dead-region row does not change `f`. -/
lemma opf_f_mmZero (m : OPFModel) (x : Fin m.nxyz → ℚ) (i : Fin m.nw)
    (hnd : ¬ inND m.kk (rvecM m x) i) :
    opf_f (mmZeroAt m i) x = opf_f m x := by
  have hfg : fgenM (mmZeroAt m i) x = fgenM m x :=
    fgenOf_update m.dd m.kk m.mm (rvecM m x) i m.H m.Cw hnd
  show fpoly m x + ccost m ⬝ᵥ x + (if anyN m then fgenM (mmZeroAt m i) x else 0)
      = fpoly m x + ccost m ⬝ᵥ x + (if anyN m then fgenM m x else 0)
  rw [hfg]

/-- Zeroing `mm` at a dead-region row does not change `df`. -/
lemma opf_df_mmZero (m : OPFModel) (x : Fin m.nxyz → ℚ) (i : Fin m.nw)
    (hnd : ¬ inND m.kk (rvecM m x) i) :
    opf_df (mmZeroAt m i) x = opf_df m x := by
  have hdf : dfgenM (mmZeroAt m i) x = dfgenM m x :=
    dfgenOf_update m.N m.dd m.kk m.mm (rvecM m x) i m.H m.Cw hnd
  funext j
  show dfPoly m x j + ccost m j + (if anyN m then dfgenM (mmZeroAt m i) x j else 0)
      = dfPoly m x j + ccost m j + (if anyN m then dfgenM m x j else 0)
  rw [hdf]

/-- Zeroing `mm` at a dead-region row does not change `d2f`. -/
lemma opf_d2f_mmZero (m : OPFModel) (x : Fin m.nxyz → ℚ) (i : Fin m.nw)
    (hnd : ¬ inND m.kk (rvecM m x) i) :
    opf_d2f (mmZeroAt m i) x = opf_d2f m x := by
  have hd2 : d2fgenM (mmZeroAt m i) x = d2fgenM m x :=
    d2fgenOf_update m.N m.dd m.kk m.mm (rvecM m x) i m.H m.Cw hnd
  funext j k
  show d2fBase m x j k + (if anyN m then d2fgenM (mmZeroAt m i) x j k else 0)
      = d2fBase m x j k + (if anyN m then d2fgenM m x j k else 0)
  rw [hd2]

/-- C3: with nonnegative dead-zone half-widths, the three zones of lines
86-88 are pairwise disjoint; `rr` shifts below rows by `+kk`, degenerate
rows by `0` and above rows by `−kk`; and a row strictly inside a nonzero
dead zone has `w = 0` and contributes nothing to `f`, `df` or `d2f`
(zeroing its scale `mm` changes none of them). -/
theorem opf_dead_zone_partition (m : OPFModel) (x : Fin m.nxyz → ℚ)
    (hkk : ∀ i, 0 ≤ m.kk i) :
    (∀ i, ¬ (inLT m.kk (rvecM m x) i ∧ inEQ m.kk (rvecM m x) i)
        ∧ ¬ (inLT m.kk (rvecM m x) i ∧ inGT m.kk (rvecM m x) i)
        ∧ ¬ (inEQ m.kk (rvecM m x) i ∧ inGT m.kk (rvecM m x) i))
      ∧ (∀ i, (inLT m.kk (rvecM m x) i →
            rrOf m.kk (rvecM m x) i = rvecM m x i + m.kk i)
          ∧ (inEQ m.kk (rvecM m x) i → rrOf m.kk (rvecM m x) i = rvecM m x i)
          ∧ (inGT m.kk (rvecM m x) i →
            rrOf m.kk (rvecM m x) i = rvecM m x i - m.kk i))
      ∧ (∀ i, -(m.kk i) ≤ rvecM m x i → rvecM m x i ≤ m.kk i → 0 < m.kk i →
          wvecM m x i = 0
            ∧ opf_f (mmZeroAt m i) x = opf_f m x
            ∧ opf_df (mmZeroAt m i) x = opf_df m x
            ∧ opf_d2f (mmZeroAt m i) x = opf_d2f m x) := by
  refine ⟨fun i => ?_, fun i => ?_, fun i h1 h2 h3 => ?_⟩
  · refine ⟨fun hc => ?_, fun hc => ?_, fun hc => ?_⟩
    · obtain ⟨hlt, heq⟩ := hc
      unfold inLT at hlt
      unfold inEQ at heq
      rw [heq.1, heq.2] at hlt
      simp at hlt
    · have := hkk i
      have hlt := hc.1
      have hgt := hc.2
      unfold inLT at hlt
      unfold inGT at hgt
      linarith
    · obtain ⟨heq, hgt⟩ := hc
      unfold inEQ at heq
      unfold inGT at hgt
      rw [heq.1, heq.2] at hgt
      simp at hgt
  · refine ⟨fun h => ?_, fun h => ?_, fun h => ?_⟩
    · have hgt : ¬ inGT m.kk (rvecM m x) i := by
        unfold inGT
        unfold inLT at h
        have := hkk i
        intro hg
        linarith
      unfold rrOf kbarOf
      rw [if_pos h, if_neg hgt]
      ring
    · unfold rrOf kbarOf
      rw [h.2]
      ring
    · have hlt : ¬ inLT m.kk (rvecM m x) i := by
        unfold inLT
        unfold inGT at h
        have := hkk i
        intro hl
        linarith
      unfold rrOf kbarOf
      rw [if_neg hlt, if_pos h]
      ring
  · have hnd : ¬ inND m.kk (rvecM m x) i := by
      intro hc
      rcases hc with h | h | h
      · exact absurd h1 (not_le.mpr h)
      · exact absurd h.2 (ne_of_gt h3)
      · exact absurd h2 (not_le.mpr h)
    exact ⟨wvecOf_dead m.dd m.kk m.mm (rvecM m x) i hnd,
      opf_f_mmZero m x i hnd, opf_df_mmZero m x i hnd,
      opf_d2f_mmZero m x i hnd⟩

/-- Witness for C3 at the concrete model `exM1` (`kk = 1 ≥ 0`) and the
decision vector `exX1`, whose single row lies strictly inside the dead
zone. -/
theorem opf_dead_zone_partition_witness :
    (∀ i, 0 ≤ exM1.kk i)
      ∧ ((∀ i, ¬ (inLT exM1.kk (rvecM exM1 exX1) i ∧ inEQ exM1.kk (rvecM exM1 exX1) i)
            ∧ ¬ (inLT exM1.kk (rvecM exM1 exX1) i ∧ inGT exM1.kk (rvecM exM1 exX1) i)
            ∧ ¬ (inEQ exM1.kk (rvecM exM1 exX1) i ∧ inGT exM1.kk (rvecM exM1 exX1) i))
          ∧ (∀ i, (inLT exM1.kk (rvecM exM1 exX1) i →
                rrOf exM1.kk (rvecM exM1 exX1) i = rvecM exM1 exX1 i + exM1.kk i)
              ∧ (inEQ exM1.kk (rvecM exM1 exX1) i →
                rrOf exM1.kk (rvecM exM1 exX1) i = rvecM exM1 exX1 i)
              ∧ (inGT exM1.kk (rvecM exM1 exX1) i →
                rrOf exM1.kk (rvecM exM1 exX1) i = rvecM exM1 exX1 i - exM1.kk i))
          ∧ (∀ i, -(exM1.kk i) ≤ rvecM exM1 exX1 i → rvecM exM1 exX1 i ≤ exM1.kk i →
              0 < exM1.kk i →
              wvecM exM1 exX1 i = 0
                ∧ opf_f (mmZeroAt exM1 i) exX1 = opf_f exM1 exX1
                ∧ opf_df (mmZeroAt exM1 i) exX1 = opf_df exM1 exX1
                ∧ opf_d2f (mmZeroAt exM1 i) exX1 = opf_d2f exM1 exX1)) :=
  ⟨fun _ => zero_le_one,
    opf_dead_zone_partition exM1 exX1 (fun _ => zero_le_one)⟩

/-! ### Claim C4: the piecewise-linear cost term -/

/-- Bumping a coordinate on which every row of `N` is zero leaves
`r = N·x − rh` unchanged. -/
lemma rvecM_update_zero_col (m : OPFModel) (x : Fin m.nxyz → ℚ)
    (j : Fin m.nxyz) (v : ℚ) (hNj : ∀ i, m.N i j = 0) :
    rvecM m (Function.update x j v) = rvecM m x := by
  funext i
  unfold rvecM
  simp only [Pi.sub_apply]
  congr 1
  simp only [Matrix.mulVec, dotProduct]
  apply Finset.sum_congr rfl
  intro k _
  by_cases hk : k = j
  · subst hk
    rw [hNj i]
    simp
  · rw [Function.update_noteq hk]

/-- Bumping a helper-variable (`y`-block) coordinate leaves `Pg` unchanged
(the blocks are disjoint). -/
lemma Pg_update_y (m : OPFModel) (x : Fin m.nxyz → ℚ) (j : Fin m.nxyz) (v : ℚ)
    (hj : m.i1y ≤ j.val ∧ j.val < m.i1y + m.ny) :
    Pg m (Function.update x j v) = Pg m x := by
  funext g
  unfold Pg
  apply Function.update_noteq
  apply Fin.ne_of_val_ne
  show m.i1Pg + g.val ≠ j.val
  have hg := g.isLt
  rcases m.hyP with h | h <;> omega

/-- Bumping a helper-variable coordinate leaves `Qg` unchanged. -/
lemma Qg_update_y (m : OPFModel) (x : Fin m.nxyz → ℚ) (j : Fin m.nxyz) (v : ℚ)
    (hj : m.i1y ≤ j.val ∧ j.val < m.i1y + m.ny) :
    Qg m (Function.update x j v) = Qg m x := by
  funext g
  unfold Qg
  apply Function.update_noteq
  apply Fin.ne_of_val_ne
  show m.i1Qg + g.val ≠ j.val
  have hg := g.isLt
  rcases m.hyQ with h | h <;> omega

/-- Bumping a helper-variable coordinate leaves `xx` unchanged. -/
lemma xxv_update_y (m : OPFModel) (x : Fin m.nxyz → ℚ) (j : Fin m.nxyz) (v : ℚ)
    (hj : m.i1y ≤ j.val ∧ j.val < m.i1y + m.ny) :
    xxv m (Function.update x j v) = xxv m x := by
  funext i
  unfold xxv
  by_cases h : i.val < m.ng
  · rw [dif_pos h, dif_pos h, Pg_update_y m x j v hj]
  · rw [dif_neg h, dif_neg h, Qg_update_y m x j v hj]

/-- Bumping a helper-variable coordinate leaves the polynomial cost
unchanged. -/
lemma fpoly_update_y (m : OPFModel) (x : Fin m.nxyz → ℚ) (j : Fin m.nxyz)
    (v : ℚ) (hj : m.i1y ≤ j.val ∧ j.val < m.i1y + m.ny) :
    fpoly m (Function.update x j v) = fpoly m x := by
  unfold fpoly
  simp only [xxv_update_y m x j v hj]

/-- `ccost · x` grows by exactly `1` under a unit bump of a helper-variable
coordinate. -/
lemma ccost_dot_update (m : OPFModel) (x : Fin m.nxyz → ℚ) (j : Fin m.nxyz)
    (hj : m.i1y ≤ j.val ∧ j.val < m.i1y + m.ny) :
    ccost m ⬝ᵥ Function.update x j (x j + 1) = ccost m ⬝ᵥ x + 1 := by
  have hstep : ∀ k, ccost m k * Function.update x j (x j + 1) k
      = ccost m k * x k + (if k = j then 1 else 0) := by
    intro k
    by_cases hk : k = j
    · subst hk
      rw [Function.update_same]
      have hcj : ccost m k = 1 := if_pos hj
      rw [if_pos rfl, hcj]
      ring
    · rw [Function.update_noteq hk, if_neg hk, add_zero]
  unfold dotProduct
  simp only [hstep]
  rw [Finset.sum_add_distrib,
    Finset.sum_ite_eq' Finset.univ j (fun _ => (1 : ℚ))]
  simp

/-- Bumping a helper-variable coordinate leaves `d2f_dPg2` unchanged. -/
lemma d2f_dPg2_update_y (m : OPFModel) (x : Fin m.nxyz → ℚ) (j : Fin m.nxyz)
    (v : ℚ) (hj : m.i1y ≤ j.val ∧ j.val < m.i1y + m.ny) :
    d2f_dPg2 m (Function.update x j v) = d2f_dPg2 m x := by
  funext g
  unfold d2f_dPg2
  simp only [Pg_update_y m x j v hj]

/-- Bumping a helper-variable coordinate leaves `d2f_dQg2` unchanged. -/
lemma d2f_dQg2_update_y (m : OPFModel) (x : Fin m.nxyz → ℚ) (j : Fin m.nxyz)
    (v : ℚ) (hj : m.i1y ≤ j.val ∧ j.val < m.i1y + m.ny) :
    d2f_dQg2 m (Function.update x j v) = d2f_dQg2 m x := by
  funext g
  unfold d2f_dQg2
  simp only [Qg_update_y m x j v hj]

/-- Bumping a helper-variable coordinate leaves the polynomial Hessian
unchanged. -/
lemma d2fBase_update_y (m : OPFModel) (x : Fin m.nxyz → ℚ) (j : Fin m.nxyz)
    (v : ℚ) (hj : m.i1y ≤ j.val ∧ j.val < m.i1y + m.ny) :
    d2fBase m (Function.update x j v) = d2fBase m x := by
  funext j2 k2
  unfold d2fBase
  simp only [d2f_dPg2_update_y m x j v hj, d2f_dQg2_update_y m x j v hj]

/-- C4 (amended): when the generalized cost map `N` is zero on the bumped
helper variable's column (in particular when there is no generalized cost
term), a unit bump of that helper variable increases `f` by exactly 1 and
leaves `d2f` unchanged; and `df` at every helper-variable offset is `1` plus
the other terms.  (Without the `N`-column hypothesis the claim fails: the
generalized term also moves, see the counterexample.) -/
theorem opf_pwl_additivity (m : OPFModel) (x : Fin m.nxyz → ℚ)
    (j : Fin m.nxyz) (_hny : 0 < m.ny)
    (hj : m.i1y ≤ j.val ∧ j.val < m.i1y + m.ny)
    (hNj : ∀ i, m.N i j = 0) :
    opf_f m (Function.update x j (x j + 1)) = opf_f m x + 1
      ∧ (∀ k : Fin m.nxyz, m.i1y ≤ k.val ∧ k.val < m.i1y + m.ny →
          opf_df m x k
            = dfPoly m x k + (if anyN m then dfgenM m x k else 0) + 1)
      ∧ opf_d2f m (Function.update x j (x j + 1)) = opf_d2f m x := by
  have hrv : rvecM m (Function.update x j (x j + 1)) = rvecM m x :=
    rvecM_update_zero_col m x j _ hNj
  refine ⟨?_, fun k hk => ?_, ?_⟩
  · unfold opf_f
    rw [fpoly_update_y m x j _ hj, ccost_dot_update m x j hj]
    have hfg : fgenM m (Function.update x j (x j + 1)) = fgenM m x := by
      unfold fgenM
      rw [hrv]
    rw [hfg]
    ring
  · unfold opf_df
    have hck : ccost m k = 1 := if_pos hk
    rw [hck]
    ring
  · have hd2 : d2fgenM m (Function.update x j (x j + 1)) = d2fgenM m x := by
      unfold d2fgenM
      rw [hrv]
    funext j2 k2
    unfold opf_d2f
    rw [d2fBase_update_y m x j _ hj, hd2]

/-- Concrete model for the C4 counterexample: a single decision variable
that is a helper variable (`ny = 1`), and a generalized cost term whose `N`
reads exactly that variable (`kk = 0`, `dd = 1`, `Cw = 1`, `H = 0`). -/
@[reducible] def exM2 : OPFModel where
  ng := 0
  nxyz := 1
  baseMVA := 1
  i1Pg := 0
  i1Qg := 0
  i1y := 0
  ny := 1
  gencost := []
  nw := 1
  N := fun _ _ => 1
  Cw := fun _ => 1
  H := fun _ _ => 0
  dd := fun _ => 1
  rh := fun _ => 0
  kk := fun _ => 0
  mm := fun _ => 1
  hPg := by omega
  hQg := by omega
  hy := by omega
  hPQ := Or.inl (by omega)
  hyP := Or.inr (by omega)
  hyQ := Or.inr (by omega)
  hgc := Or.inl rfl

/-- The zero decision vector. -/
@[reducible] def exX2 : Fin 1 → ℚ := fun _ => 0

/-- C4 counterexample: at `exM2`, bumping the helper variable by one unit
increases `f` by 2 (1 from the selector row and 1 from the generalized
term whose `N` reads the helper variable), not by exactly 1. -/
theorem opf_pwl_additivity_counterexample :
    opf_f exM2 (Function.update exX2 0 (exX2 0 + 1)) ≠ opf_f exM2 exX2 + 1 := by
  have hN : anyN exM2 := ⟨0, 0, one_ne_zero⟩
  haveI : IsEmpty (Fin exM2.gencost.length) := inferInstanceAs (IsEmpty (Fin 0))
  norm_num [opf_f, fpoly, ccost, hN, Finset.univ_eq_empty, Finset.sum_empty,
    fgenM, fgenOf, wvecOf, MdiagOf, LLd, QQd,
    rrOf, kbarOf, inND, inLT, inEQ, inGT, rvecM, Matrix.mulVec,
    Matrix.mul_apply, dotProduct, Matrix.diagonal, Matrix.of_apply,
    Fin.sum_univ_one, Pi.sub_apply, Function.update_same]

/-- Concrete model for the C4 witness: like `exM2` but with `N = 0`, so the
amended claim's hypothesis on the helper column holds. -/
@[reducible] def exM4 : OPFModel where
  ng := 0
  nxyz := 1
  baseMVA := 1
  i1Pg := 0
  i1Qg := 0
  i1y := 0
  ny := 1
  gencost := []
  nw := 1
  N := fun _ _ => 0
  Cw := fun _ => 1
  H := fun _ _ => 0
  dd := fun _ => 1
  rh := fun _ => 0
  kk := fun _ => 0
  mm := fun _ => 1
  hPg := by omega
  hQg := by omega
  hy := by omega
  hPQ := Or.inl (by omega)
  hyP := Or.inr (by omega)
  hyQ := Or.inr (by omega)
  hgc := Or.inl rfl

/-- Witness for C4 (amended) at `exM4`, bumping the helper variable 0. -/
theorem opf_pwl_additivity_witness :
    (0 < exM4.ny
        ∧ (exM4.i1y ≤ (0 : Fin 1).val ∧ (0 : Fin 1).val < exM4.i1y + exM4.ny)
        ∧ ∀ i, exM4.N i 0 = 0)
      ∧ (opf_f exM4 (Function.update exX2 0 (exX2 0 + 1)) = opf_f exM4 exX2 + 1
          ∧ (∀ k : Fin exM4.nxyz, exM4.i1y ≤ k.val ∧ k.val < exM4.i1y + exM4.ny →
              opf_df exM4 exX2 k
                = dfPoly exM4 exX2 k
                  + (if anyN exM4 then dfgenM exM4 exX2 k else 0) + 1)
          ∧ opf_d2f exM4 (Function.update exX2 0 (exX2 0 + 1))
              = opf_d2f exM4 exX2) :=
  ⟨⟨by decide, ⟨by decide, by decide⟩, fun _ => rfl⟩,
    opf_pwl_additivity exM4 exX2 0 (by decide) ⟨by decide, by decide⟩
      (fun _ => rfl)⟩

/-! ### Claim C5: reactive-power polynomial Hessian entries -/

/-- Concrete model for C5: one generator (`ng = 1`), a two-row `gencost`
whose second row is the polynomial reactive cost `Qg²` (coefficients
`[1, 0, 0]`), `baseMVA = 10`, and no generalized cost term (`nw = 0`). -/
@[reducible] def exM5 : OPFModel where
  ng := 1
  nxyz := 2
  baseMVA := 10
  i1Pg := 0
  i1Qg := 1
  i1y := 2
  ny := 0
  gencost := [⟨PW_LINEAR, []⟩, ⟨POLYNOMIAL, [1, 0, 0]⟩]
  nw := 0
  N := fun _ _ => 0
  Cw := fun _ => 0
  H := fun _ _ => 0
  dd := fun _ => 0
  rh := fun _ => 0
  kk := fun _ => 0
  mm := fun _ => 0
  hPg := by omega
  hQg := by omega
  hy := by omega
  hPQ := Or.inl (by omega)
  hyP := Or.inr (by omega)
  hyQ := Or.inr (by omega)
  hgc := Or.inr rfl

/-- The decision vector with `Pg = 0`, `Qg = 3`. -/
@[reducible] def exX5 : Fin 2 → ℚ := fun i => if i = 1 then 3 else 0

/-- C5, evaluation at the failing input: because line 150 takes
`qcost = gencost[ng + 1:2 * ng]` (skipping row `ng`), for `ng = 1` the
reactive block is empty and the returned Hessian's `Qg` diagonal entry is
`0`, while the claimed (and documented) value
`baseMVA² · d²/dQg²(gencost row ng)` at `Qg·baseMVA = 30` is `200`. -/
theorem opf_qcost_off_by_one :
    opf_d2f exM5 exX5 1 1 = 0
      ∧ exM5.baseMVA ^ 2
          * polycost (exM5.gencost.get ⟨1, by norm_num⟩)
              (Qg exM5 exX5 ⟨0, Nat.one_pos⟩ * exM5.baseMVA) 2 = 200 := by
  constructor
  · have hN : ¬ anyN exM5 := by
      intro hc
      obtain ⟨i, _, _⟩ := hc
      exact absurd i.isLt (Nat.not_lt_zero _)
    have hq : qcost exM5 = [] := rfl
    norm_num [opf_d2f, d2fBase, d2f_dPg2, d2f_dQg2, hN, hq, anyRowNZ, pcost,
      Pg, PW_LINEAR, POLYNOMIAL]
  · norm_num [polycost, polyDer, polyDerAux, polyval, Qg, exX5,
      Function.iterate_succ, Function.iterate_zero, List.foldl]
